import Mathlib

/-!
Shallow embedding of the `post_checker_eval.py` orchestration of the SQuire
repository: the differential static-analysis evaluation engine.

Text is modelled as `List Char` (Python `str`), filesystem paths as a flag for
absoluteness plus a segment list (a symlink-free POSIX path model), Python
`set` as `Finset`, and the subprocess layer as oracles recorded on the inputs
(each compile-database entry carries the exit code and combined output its
analysis invocation would observe).  Fallible code returns `Except`/`Option`.
-/

/-- Python `str`, modelled as its character list. -/
abbrev Str := List Char

/-- Code-point comparison on characters, as Python string comparison uses. -/
def charLt (a b : Char) : Bool := a.toNat < b.toNat

/-- Lexicographic `≤` on strings by code point, as Python `sorted` uses. -/
def lexLe : Str → Str → Bool
  | [], _ => true
  | _ :: _, [] => false
  | a :: as, b :: bs =>
    if charLt a b then true
    else if charLt b a then false
    else lexLe as bs

/-- `lexLe` as a proposition, for use with `Finset.sort`. -/
def lexLeP (a b : Str) : Prop := lexLe a b = true

instance : DecidableRel lexLeP := fun a b => instDecidableEqBool (lexLe a b) true

def charLt_iff (a b : Char) : charLt a b = true ↔ a.toNat < b.toNat := by
  simp [charLt]

def lexLe_total (a b : Str) : lexLe a b = true ∨ lexLe b a = true := by
  induction a generalizing b with
  | nil => exact Or.inl rfl
  | cons c cs ih =>
      cases b with
      | nil => exact Or.inr rfl
      | cons d ds =>
          by_cases h1 : charLt c d = true
          · left; simp [lexLe, h1]
          · by_cases h2 : charLt d c = true
            · right; simp [lexLe, h2]
            · rcases ih ds with h | h
              · left; simp [lexLe, h1, h2, h]
              · right; simp [lexLe, h1, h2, h]

def charEq_of_not_lt {c d : Char} (h1 : ¬ charLt c d = true)
    (h2 : ¬ charLt d c = true) : c = d := by
  rw [charLt_iff] at h1 h2
  have hn : c.toNat = d.toNat := by omega
  have hv : c.val.toNat = d.val.toNat := hn
  exact Char.eq_of_val_eq (UInt32.ext hv)

def lexLe_antisymm {a b : Str} (h1 : lexLe a b = true) (h2 : lexLe b a = true) :
    a = b := by
  induction a generalizing b with
  | nil =>
      cases b with
      | nil => rfl
      | cons d ds => simp [lexLe] at h2
  | cons c cs ih =>
      cases b with
      | nil => simp [lexLe] at h1
      | cons d ds =>
          by_cases hcd : charLt c d = true
          · exfalso
            have hnd : ¬ charLt d c = true := by
              rw [charLt_iff] at hcd ⊢; omega
            simp [lexLe, hcd, hnd] at h2
          · by_cases hdc : charLt d c = true
            · simp [lexLe, hcd, hdc] at h1
            · have hcde : c = d := charEq_of_not_lt hcd hdc
              subst hcde
              simp only [lexLe, if_neg hcd, if_neg hdc] at h1 h2
              rw [ih h1 h2]

def lexLe_trans {a b c : Str} (h1 : lexLe a b = true) (h2 : lexLe b c = true) :
    lexLe a c = true := by
  induction a generalizing b c with
  | nil => rfl
  | cons x xs ih =>
      cases b with
      | nil => simp [lexLe] at h1
      | cons y ys =>
          cases c with
          | nil => simp [lexLe] at h2
          | cons z zs =>
              simp only [lexLe] at h1 h2 ⊢
              by_cases hxy : charLt x y = true
              · rw [charLt_iff] at hxy
                by_cases hyz : charLt y z = true
                · rw [charLt_iff] at hyz
                  simp [charLt_iff, show x.toNat < z.toNat by omega]
                · by_cases hzy : charLt z y = true
                  · simp [hyz, hzy] at h2
                  · rw [charLt_iff] at hzy hyz
                    simp [charLt_iff, show x.toNat < z.toNat by omega]
              · by_cases hyx : charLt y x = true
                · simp [hxy, hyx] at h1
                · have hxye : x = y := charEq_of_not_lt hxy hyx
                  subst hxye
                  by_cases hyz : charLt x z = true
                  · simp [hyz]
                  · by_cases hzy : charLt z x = true
                    · simp [hyz, hzy] at h2
                    · simp only [if_neg hxy, if_neg hyx] at h1
                      simp only [if_neg hyz, if_neg hzy] at h2 ⊢
                      exact ih h1 h2

instance : IsTrans Str lexLeP := ⟨fun _ _ _ => lexLe_trans⟩
instance : IsAntisymm Str lexLeP := ⟨fun _ _ => lexLe_antisymm⟩
instance : IsTotal Str lexLeP := ⟨lexLe_total⟩

/-! ### Text primitives (Python `str` operations used by the engine) -/

/-- `str.splitlines`, restricted to `\n` line terminators. -/
def splitLinesAux : Str → Str → List Str
  | [], acc => [acc.reverse]
  | '\n' :: rest, acc => acc.reverse :: splitLinesAux rest []
  | c :: rest, acc => splitLinesAux rest (c :: acc)

/-- Split a text into its lines. -/
def splitLines (s : Str) : List Str := splitLinesAux s []

/-- `str.strip`: drop leading and trailing whitespace. -/
def stripStr (s : Str) : Str :=
  ((s.dropWhile Char.isWhitespace).reverse.dropWhile Char.isWhitespace).reverse

/-- Python `needle in haystack` substring containment. -/
def containsSeq (pat : Str) : Str → Bool
  | [] => pat.isEmpty
  | c :: rest => pat.isPrefixOf (c :: rest) || containsSeq pat rest

/-- `int(...)` on a digit string. -/
def digitsToNat (l : Str) : Nat :=
  l.foldl (fun n c => 10 * n + (c.toNat - '0'.toNat)) 0

/-- Decimal rendering of a natural number (Python `str(int)` / f-string). -/
def natChars (n : Nat) : Str := (Nat.repr n).data

/-! ### Filesystem path model

A symlink-free POSIX path: an absoluteness flag plus the non-empty,
non-`.` segments, as `pathlib.PurePosixPath` parses them. -/

structure PathM where
  absolute : Bool
  segs : List Str
deriving DecidableEq, Repr

/-- Split a raw path string on `/`. -/
def splitSlashAux : Str → Str → List Str
  | [], acc => [acc.reverse]
  | '/' :: rest, acc => acc.reverse :: splitSlashAux rest []
  | c :: rest, acc => splitSlashAux rest (c :: acc)

/-- `pathlib.Path(s)`: absolute iff the string starts with `/`; empty and
lone-`.` components are dropped at parse time, as `pathlib` drops them. -/
def strToPath (s : Str) : PathM :=
  { absolute := decide (s.head? = some '/'),
    segs := (splitSlashAux s []).filter (fun seg => seg ≠ [] ∧ seg ≠ ['.']) }

/-- One step of lexical `..`/`.` normalization over a reversed prefix stack. -/
def normStep (acc : List Str) (s : Str) : List Str :=
  if s = ['.'] ∨ s = [] then acc
  else if s = ['.', '.'] then acc.tail
  else s :: acc

/-- Lexical normalization of an absolute segment list: drop `.`/empty
segments and cancel `..` against its parent (`/..` stays at the root). -/
def normSegs (l : List Str) : List Str := (l.foldl normStep []).reverse

/-- Python `/` (path join): an absolute right operand replaces the left. -/
def pjoin (d p : PathM) : PathM :=
  if p.absolute then p else { absolute := d.absolute, segs := d.segs ++ p.segs }

/-- `Path.resolve(strict=False)` on a symlink-free filesystem: make the path
absolute against the process working directory `cwd` (itself absolute) and
normalize `.` and `..` lexically. -/
def presolve (cwd : PathM) (p : PathM) : PathM :=
  if p.absolute then { absolute := true, segs := normSegs p.segs }
  else { absolute := true, segs := normSegs (cwd.segs ++ p.segs) }

/-- `Path.relative_to(root)`: strip `root` when it is a prefix of the path,
else (`ValueError` caught by the caller) return the path unchanged. -/
def relTo (p root : PathM) : PathM :=
  if root.absolute = p.absolute ∧ root.segs.isPrefixOf p.segs then
    { absolute := false, segs := p.segs.drop root.segs.length }
  else p

/-- `str(path)` for the POSIX path model. -/
def pathChars (p : PathM) : Str :=
  if p.absolute then '/' :: (p.segs.intersperse ['/']).flatten
  else if p.segs = [] then ['.']
  else (p.segs.intersperse ['/']).flatten

/-- A normalized segment list has no empty, `.` or `..` segments. -/
def noSpecial (l : List Str) : Prop :=
  ∀ s ∈ l, s ≠ [] ∧ s ≠ ['.'] ∧ s ≠ ['.', '.']

/-- The checker's fixed marker substring. -/
def npdMarker : Str := "Possible NULL dereference".data

/-- One structural match of the diagnostic pattern. -/
structure DiagMatch where
  path : Str
  lineNo : Str
  colNo : Str
  severity : Str
  message : Str
deriving DecidableEq, Repr

/-- Match one (already stripped) line against the diagnostic pattern. -/
def parseDiagLine (line : Str) : Option DiagMatch :=
  let s1 := line.span (fun c => c != ':' && c != '\n')
  if s1.1.isEmpty then none else
  match s1.2 with
  | ':' :: r2 =>
    let s2 := r2.span Char.isDigit
    if s2.1.isEmpty then none else
    match s2.2 with
    | ':' :: r4 =>
      let s3 := r4.span Char.isDigit
      if s3.1.isEmpty then none else
      match s3.2 with
      | ':' :: r6 =>
        let s4 := r6.span Char.isWhitespace
        if s4.1.isEmpty then none else
        let sevRest : Option (Str × Str) :=
          if ("warning:".data).isPrefixOf s4.2 then
            some ("warning".data, s4.2.drop 8)
          else if ("error:".data).isPrefixOf s4.2 then
            some ("error".data, s4.2.drop 6)
          else none
        match sevRest with
        | none => none
        | some (sev, r8) =>
          let s5 := r8.span Char.isWhitespace
          if s5.1.isEmpty then none
          else if npdMarker.isPrefixOf s5.2 then
            some { path := s1.1, lineNo := s2.1, colNo := s3.1,
                   severity := sev, message := s5.2 }
          else none
      | _ => none
    | _ => none
  | _ => none

/-- One extracted diagnostic record. -/
structure Diag where
  file : Str
  lineNo : Nat
  column : Nat
  severity : Str
  message : Str
  key : Str
  raw : Str
deriving DecidableEq, Repr

/-- Path normalization of one extracted path (`extract_warnings` lines
272-281): resolve relative paths against the invocation's resolved working
directory, then express relative to the resolved repository root when
possible, else leave absolute. -/
def relPathOf (cwd entryDirRes rootRes : PathM) (rawPath : PathM) : PathM :=
  let absPath :=
    if ¬ rawPath.absolute then presolve cwd (pjoin entryDirRes rawPath)
    else presolve cwd rawPath
  relTo absPath rootRes

/-- The composite diagnostic identity `f"{rel_path}:{line}:{message}"`. -/
def diagKey (relPath : PathM) (lineNo : Nat) (message : Str) : Str :=
  pathChars relPath ++ (':' :: natChars lineNo) ++ (':' :: message)

/-- `extract_warnings`: scan the raw analyzer output line by line, keep
lines containing the checker marker that match the diagnostic pattern, and
normalize their paths.  `cwd` stands for the process working directory that
`Path.resolve` consults. -/
def extract_warnings (cwd : PathM) (diagnosticText : Str)
    (repoRoot entryDirectory : PathM) : List Diag :=
  if diagnosticText.isEmpty then [] else
  let rootRes := presolve cwd repoRoot
  let dirRes := presolve cwd entryDirectory
  (splitLines diagnosticText).filterMap (fun line =>
    if containsSeq npdMarker line then
      match parseDiagLine (stripStr line) with
      | none => none
      | some m =>
        let relPath := relPathOf cwd dirRes rootRes (strToPath m.path)
        let message := stripStr m.message
        some { file := pathChars relPath
             , lineNo := digitsToNat m.lineNo
             , column := digitsToNat m.colNo
             , severity := m.severity
             , message := message
             , key := diagKey relPath (digitsToNat m.lineNo) message
             , raw := stripStr line }
    else none)

/-! ### Analyzer Driver (`run_static_analyzer`)

A compile-database entry carries, besides its JSON fields, the exit code and
combined stdout+stderr that its analysis invocation would observe: the
subprocess layer is an oracle recorded on the input.  `shlexSplit` stands
for `shlex.split`, an external library function left abstract. -/

/-- The checker's dotted name (`CHECKER_NAME`). -/
def checkerName : Str := "squire.NPDChecker".data

/-- One entry of `compile_commands.json`, plus its invocation oracle. -/
structure CdbEntry where
  file : Option Str
  directory : Option Str
  arguments : Option (List Str)
  command : Option Str
  exitCode : Int
  output : Str
deriving DecidableEq, Repr

/-- Recognized C/C++ source extensions (`.endswith((".c", ".cc", ".cpp"))`). -/
def usableCExt (f : Str) : Bool :=
  (".c".data).isSuffixOf f || (".cc".data).isSuffixOf f || (".cpp".data).isSuffixOf f

/-- Reconstruct the argument token list of an entry: a non-empty structured
`arguments` array wins, else `shlex.split(entry["command"])`; a missing
`command` key is a `KeyError`. -/
def getArguments (shlexSplit : Str → List Str) (e : CdbEntry) :
    Except Unit (List Str) :=
  match e.arguments with
  | some l =>
      if l.isEmpty then
        match e.command with
        | some c => .ok (shlexSplit c)
        | none => .error ()
      else .ok l
  | none =>
      match e.command with
      | some c => .ok (shlexSplit c)
      | none => .error ()

/-- The flags injected after `[compiler, "--analyze"]`. -/
def injectedFlags (checkerSo : Str) : List Str :=
  [ "-Xclang".data, "-load".data, "-Xclang".data, checkerSo
  , "-Xclang".data, "-analyzer-checker=".data ++ checkerName
  , "-fno-color-diagnostics".data ]

/-- The stripping loop over `arguments[1:]`: drop `-c`, drop `-o` together
with its following token, drop any other token beginning with `-o`; the
flag records a pending `-o` path skip. -/
def stripCompileArgs : Bool → List Str → List Str
  | _, [] => []
  | true, _ :: rest => stripCompileArgs false rest
  | false, a :: rest =>
      if a = "-c".data then stripCompileArgs false rest
      else if a = "-o".data then stripCompileArgs true rest
      else if ("-o".data).isPrefixOf a then stripCompileArgs false rest
      else a :: stripCompileArgs false rest

/-- Build the analysis invocation from an entry's token list
(`run_static_analyzer` lines 347-367). -/
def buildFilteredArgs (checkerSo : Str) : List Str → List Str
  | [] => []
  | compiler :: rest =>
      compiler :: "--analyze".data :: injectedFlags checkerSo
        ++ stripCompileArgs false rest

/-- Mutable driver state: `processed`, `warning_keys`, `diagnostics`. -/
structure AnState where
  processed : Nat
  keys : List Str
  diags : List Diag
deriving DecidableEq, Repr

/-- The per-unit recording loop (`run_static_analyzer` lines 392-395):
append each parsed diagnostic whose key is not yet seen. -/
def recordParsed (st : AnState) (parsed : List Diag) : AnState :=
  parsed.foldl
    (fun st d =>
      if d.key ∈ st.keys then st
      else { st with keys := d.key :: st.keys, diags := st.diags ++ [d] })
    st

/-- Has the optional unit limit been reached? -/
def limitReached (limit : Option Nat) (processed : Nat) : Bool :=
  match limit with
  | some n => decide (processed ≥ n)
  | none => false

/-- The driver loop over the compile-database entries.  Skips entries with
no usable file or an unrecognized extension, reconstructs each remaining
entry's arguments (a missing `command` key aborts with `.error`), builds the
analysis invocation, runs it with output captured and `check=False` (so the
recorded `exitCode` is never consulted), extracts and records diagnostics,
and counts the unit as processed. -/
def analyzeEntries (shlexSplit : Str → List Str) (cwd repo : PathM)
    (checkerSo : Str) (limit : Option Nat) :
    List CdbEntry → AnState → Except Unit AnState
  | [], st => .ok st
  | e :: rest, st =>
      if limitReached limit st.processed then .ok st
      else
        match e.file with
        | none => analyzeEntries shlexSplit cwd repo checkerSo limit rest st
        | some f =>
            if f.isEmpty then
              analyzeEntries shlexSplit cwd repo checkerSo limit rest st
            else if ¬ usableCExt f then
              analyzeEntries shlexSplit cwd repo checkerSo limit rest st
            else
              match getArguments shlexSplit e with
              | .error _ => .error ()
              | .ok args =>
                  if args.isEmpty then
                    analyzeEntries shlexSplit cwd repo checkerSo limit rest st
                  else
                    let dir := strToPath (e.directory.getD (pathChars repo))
                    let _invocation := buildFilteredArgs checkerSo args
                    let parsed := extract_warnings cwd e.output repo dir
                    let st1 := recordParsed st parsed
                    analyzeEntries shlexSplit cwd repo checkerSo limit rest
                      { st1 with processed := st1.processed + 1 }

/-- `run_static_analyzer`: run the loop from the empty state and sort the
collected diagnostics by key. -/
def run_static_analyzer (shlexSplit : Str → List Str) (cwd repo : PathM)
    (checkerSo : Str) (limit : Option Nat) (entries : List CdbEntry) :
    Except Unit (List Str × List Diag) :=
  match analyzeEntries shlexSplit cwd repo checkerSo limit entries ⟨0, [], []⟩ with
  | .error u => .error u
  | .ok st =>
      .ok (st.keys, List.insertionSort (fun a b => lexLe a.key b.key = true) st.diags)

/-! ### Comparator (`compare_summaries`) -/

/-- Python `sorted` over a set of keys: any sorting algorithm produces the
one sorted enumeration, so an insertion sort lifts along permutations. -/
def sortKeys (s : Finset Str) : List Str :=
  Quot.lift (List.insertionSort lexLeP)
    (fun l₁ l₂ h =>
      List.eq_of_perm_of_sorted
        (((List.perm_insertionSort lexLeP l₁).trans h).trans
          (List.perm_insertionSort lexLeP l₂).symm)
        (List.sorted_insertionSort lexLeP l₁)
        (List.sorted_insertionSort lexLeP l₂))
    s.val

/-- `compare_summaries` (lines 506-508): the three key-set classifications,
each rendered as a lexicographically sorted list. -/
def compare_summaries (baseline latest : Finset Str) :
    List Str × List Str × List Str :=
  ( sortKeys (baseline \ latest)
  , sortKeys (baseline ∩ latest)
  , sortKeys (latest \ baseline) )

/-! ### Checker Builder (`build_checker`) -/

/-- The filesystem facts `build_checker` consults, plus the compile oracle. -/
structure CheckerFs where
  sourceExists : Bool
  libExists : Bool
  sourceMtime : Int
  libMtime : Int
  compileOk : Bool
deriving DecidableEq, Repr

inductive BuildErr
  | missingInput
  | commandFailure
deriving DecidableEq, Repr

inductive BuildOutcome
  | rebuilt
  | reused
deriving DecidableEq, Repr

/-- `build_checker`: raise `FileNotFoundError` when the source is missing;
rebuild when forced, when the artifact is missing, or when the artifact is
older than the source; else reuse.  The second component records whether a
compile command was issued. -/
def build_checker (fs : CheckerFs) (force : Bool) :
    Except BuildErr BuildOutcome × Bool :=
  if ¬ fs.sourceExists then (.error .missingInput, false)
  else if force || ¬ fs.libExists || decide (fs.libMtime < fs.sourceMtime) then
    if fs.compileOk then (.ok .rebuilt, true) else (.error .commandFailure, true)
  else (.ok .reused, false)

/-! ### Top-level exit behavior (`main`) -/

/-- The outcome of `main`'s `try` body. -/
inductive RunOutcome
  | ok
  | cmdError (returncode : Int) (stdout stderr : Option Str) (msg : Str)
  | otherError (msg : Str)

/-- `main`'s exception handlers: exit code and the stderr writes, in order.
A falsy (absent or empty) captured stream is not printed; `returncode or 1`
maps a falsy exit code to 1. -/
def mainExit : RunOutcome → Int × List Str
  | .ok => (0, [])
  | .cmdError rc out err msg =>
      ( if rc = 0 then 1 else rc
      , (match out with | some s => if s.isEmpty then [] else [s] | none => [])
        ++ (match err with | some s => if s.isEmpty then [] else [s] | none => [])
        ++ ["\nerror: ".data ++ msg ++ "\n".data] )
  | .otherError msg => (1, ["\nUnhandled error: ".data ++ msg ++ "\n".data])

/-! ### Repository State Manager and kernel workflow

Git is modelled by its effect on `HEAD` and on branch tips: `clean` leaves
both alone, `checkout ref` attaches to `ref` when it names a branch and
otherwise detaches at the commit `ref` resolves to, and `reset --hard ref`
moves the current branch (or the detached `HEAD`) to that commit.  Branch
existence and non-branch ref resolution never change during a run. -/

inductive GitCmd
  | clean
  | checkout (ref : Str)
  | resetHard (ref : Str)
deriving DecidableEq, Repr

inductive GitHead
  | attached (branch : Str)
  | detached (commit : Str)
deriving DecidableEq, Repr

structure GitRepo where
  isBranch : Str → Bool
  tip : Str → Str
  resolveRef : Str → Str
  head : GitHead

/-- The commit `HEAD` points at. -/
def headCommit (r : GitRepo) : Str :=
  match r.head with
  | .attached b => r.tip b
  | .detached c => c

/-- `git rev-parse --abbrev-ref HEAD`: the branch name, or the detached-HEAD
sentinel `"HEAD"`. -/
def recordedBranch (r : GitRepo) : Str :=
  match r.head with
  | .attached b => b
  | .detached _ => "HEAD".data

/-- Resolve a ref to a commit. -/
def resolveGit (r : GitRepo) (ref : Str) : Str :=
  if ref = "HEAD".data then headCommit r
  else if r.isBranch ref then r.tip ref
  else r.resolveRef ref

/-- Effect of one git command on the repository. -/
def gitStep (r : GitRepo) : GitCmd → GitRepo
  | .clean => r
  | .checkout ref =>
      if r.isBranch ref then { r with head := .attached ref }
      else { r with head := .detached (resolveGit r ref) }
  | .resetHard ref =>
      let c := resolveGit r ref
      match r.head with
      | .attached b =>
          { r with tip := fun x => if x = b then c else r.tip x }
      | .detached _ => { r with head := .detached c }

/-- Run a command sequence. -/
def gitExec (r : GitRepo) (cmds : List GitCmd) : GitRepo := cmds.foldl gitStep r

/-- The git commands `analyze_kernel_revision` issues for one tag
(lines 442-444): checkout the tag, hard-reset to `HEAD`, hard-clean. -/
def tagOps (tag : Str) : List GitCmd :=
  [.checkout tag, .resetHard ("HEAD".data), .clean]

/-- How far one tag's processing gets: success, or a raise after `n` of its
git commands succeeded (covering failures of the git commands themselves and
of every later step of that tag's pipeline). -/
inductive TagOutcome
  | ok
  | failAfter (n : Nat)
deriving DecidableEq, Repr

/-- The git commands the `for tag in args.tags` loop emits, and whether it
ran to completion: a raise stops the loop. -/
def processTagsOps : List (Str × TagOutcome) → List GitCmd × Bool
  | [] => ([], true)
  | (t, .ok) :: rest =>
      let p := processTagsOps rest
      (tagOps t ++ p.1, p.2)
  | (t, .failAfter n) :: _ => ((tagOps t).take n, false)

/-- `restore_linux_repo`: hard-clean, checkout the recorded original commit,
then — when the recorded original state was a named branch rather than the
detached-HEAD sentinel (or the empty string) — checkout that branch and
hard-reset it to the original commit, and one final hard-clean. -/
def restoreOps (originalBranch originalCommit : Str) : List GitCmd :=
  [.clean, .checkout originalCommit]
    ++ (if originalBranch ≠ [] ∧ originalBranch ≠ "HEAD".data then
          [.checkout originalBranch, .resetHard originalCommit]
        else [])
    ++ [.clean]

/-- The git commands of `run_kernel_workflow`'s `try`/`finally` region
(lines 569-587): the per-tag loop, then — on success and on any raise —
the restoration sequence. -/
def workflowOps (r : GitRepo) (plan : List (Str × TagOutcome)) : List GitCmd :=
  (processTagsOps plan).1 ++ restoreOps (recordedBranch r) (headCommit r)

/-! ### Theorems -/

/-- Modelled from the spec's words for refinement comparison: strip every
`-c` token, every `-o <path>` pair, and every other single token beginning
with `-o`. -/
def stripSpecArgs : List Str → List Str
  | [] => []
  | [a] => if a = "-c".data ∨ ("-o".data).isPrefixOf a then [] else [a]
  | a :: b :: rest =>
      if a = "-o".data then stripSpecArgs rest
      else if a = "-c".data ∨ ("-o".data).isPrefixOf a then stripSpecArgs (b :: rest)
      else a :: stripSpecArgs (b :: rest)

/-! ### Auxiliary definitions for concrete runs and invariants -/

/-- A concrete instantiation of the abstract `shlex.split` parameter, used
for witnesses whose command strings contain no quoting: split on spaces. -/
def splitSpacesAux : Str → Str → List Str
  | [], acc => [acc.reverse]
  | ' ' :: rest, acc => acc.reverse :: splitSpacesAux rest []
  | c :: rest, acc => splitSpacesAux rest (c :: acc)

/-- Whitespace-only shell splitting. -/
def wsSplit (s : Str) : List Str :=
  (splitSpacesAux s []).filter (fun t => t ≠ [])

/-- Loop-state invariant of the recording loop: every recorded diagnostic
key is among `warning_keys`, and recorded keys are pairwise distinct. -/
def stInv (st : AnState) : Prop :=
  (∀ d ∈ st.diags, d.key ∈ st.keys)
    ∧ (st.diags.map (fun d => d.key)).Nodup

/-- Raw analyzer output holding two diagnostics with the same file, line
and message but different columns. -/
def dedupDemoText : Str :=
  ("foo.c:3:5: warning: Possible NULL dereference of ptr\nfoo.c:3:9: warning: Possible NULL dereference of ptr").data

/-- The shared key of the two demo diagnostics. -/
def dedupDemoKey : Str := "foo.c:3:Possible NULL dereference of ptr".data

/-- A process working directory for concrete runs. -/
def demoCwd : PathM := { absolute := true, segs := [] }

/-- A repository root for concrete runs. -/
def demoRoot : PathM := { absolute := true, segs := ["repo".data] }

/-- A compile-database entry with a usable C file but neither a non-empty
`arguments` array nor a `command` string. -/
def missingCmdEntry : CdbEntry :=
  { file := some ("drivers/foo.c".data), directory := some ("/repo".data)
  , arguments := none, command := none, exitCode := 0, output := [] }

/-- A well-formed entry whose invocation exits non-zero yet still emits one
diagnostic. -/
def failingUnitEntry : CdbEntry :=
  { file := some ("foo.c".data), directory := some ("/repo".data)
  , arguments := some ["cc".data, "-c".data, "foo.c".data], command := none
  , exitCode := 1
  , output := "foo.c:3:5: warning: Possible NULL dereference of ptr".data }

/-- A well-formed entry whose invocation succeeds and emits one diagnostic. -/
def okUnitEntry : CdbEntry :=
  { file := some ("bar.c".data), directory := some ("/repo".data)
  , arguments := some ["cc".data, "-c".data, "bar.c".data], command := none
  , exitCode := 0
  , output := "bar.c:7:2: warning: Possible NULL dereference of q".data }

/-- Does processing this entry abort the whole batch (a `KeyError` from the
missing `command` lookup)? -/
def entryAborts (shlexSplit : Str → List Str) (e : CdbEntry) : Bool :=
  match e.file with
  | none => false
  | some f =>
      if f.isEmpty then false
      else if ¬ usableCExt f then false
      else
        match getArguments shlexSplit e with
        | .error _ => true
        | .ok _ => false

/-- Overwrite an entry's recorded invocation exit code. -/
def withExit (g : CdbEntry → Int) (e : CdbEntry) : CdbEntry :=
  { e with exitCode := g e }

/-- A one-branch repository for concrete workflow runs: branch `master` at
commit `c0`, every other ref resolving to itself. -/
def demoRepo : GitRepo :=
  { isBranch := fun s => decide (s = "master".data)
  , tip := fun _ => "c0".data
  , resolveRef := fun s => s
  , head := .attached ("master".data) }

/-- A concrete workflow plan: one tag succeeds, the next raises after its
checkout succeeded. -/
def demoPlan : List (Str × TagOutcome) :=
  [("v5.9".data, .ok), ("v5.17".data, .failAfter 1)]

instance {e a : Type} [DecidableEq e] [DecidableEq a] :
    DecidableEq (Except e a) := fun x y =>
  match x, y with
  | .error e1, .error e2 =>
      if h : e1 = e2 then isTrue (by rw [h])
      else isFalse (by intro hc; cases hc; exact h rfl)
  | .error _, .ok _ => isFalse (by intro hc; cases hc)
  | .ok _, .error _ => isFalse (by intro hc; cases hc)
  | .ok a1, .ok a2 =>
      if h : a1 = a2 then isTrue (by rw [h])
      else isFalse (by intro hc; cases hc; exact h rfl)

/-! ### Theorems and supporting lemmas -/

theorem noSpecial_normStep {acc : List Str} (h : noSpecial acc) (s : Str) :
    noSpecial (normStep acc s) := by
  unfold normStep
  split
  · exact h
  · split
    · intro x hx
      exact h x (List.mem_of_mem_tail hx)
    · rename_i h1 h2
      intro x hx
      rcases List.mem_cons.mp hx with rfl | hx
      · push_neg at h1
        exact ⟨h1.2, h1.1, h2⟩
      · exact h x hx

theorem noSpecial_foldl {l : List Str} :
    ∀ {acc : List Str}, noSpecial acc → noSpecial (l.foldl normStep acc) := by
  induction l with
  | nil => intro acc h; exact h
  | cons s rest ih =>
      intro acc h
      simp only [List.foldl_cons]
      exact ih (noSpecial_normStep h s)

theorem noSpecial_normSegs (l : List Str) : noSpecial (normSegs l) := by
  intro s hs
  exact noSpecial_foldl (by intro x hx; cases hx) s (List.mem_reverse.mp hs)

theorem foldl_normStep_of_noSpecial {m : List Str} (h : noSpecial m) :
    ∀ acc, m.foldl normStep acc = m.reverse ++ acc := by
  induction m with
  | nil => intro acc; rfl
  | cons s rest ih =>
      intro acc
      have hs := h s (by simp)
      have hrest : noSpecial rest := fun x hx => h x (by simp [hx])
      have hcond : ¬ (s = ['.'] ∨ s = []) := by
        push_neg
        exact ⟨hs.2.1, hs.1⟩
      simp only [List.foldl_cons, normStep, if_neg hcond, if_neg hs.2.2]
      rw [ih hrest]
      simp

/-- Resolution is idempotent: normalizing a normalized segment list is the
identity. -/
theorem normSegs_idem (l : List Str) : normSegs (normSegs l) = normSegs l := by
  unfold normSegs
  rw [foldl_normStep_of_noSpecial]
  · simp [normSegs]
  · intro s hs
    exact noSpecial_normSegs l s (by simpa [normSegs] using hs)

/-! ### Diagnostic Extractor (`extract_warnings`)

The fixed pattern
`^(?P<path>[^:\n]+):(?P<line>\d+):(?P<col>\d+):\s+(?P<severity>warning|error):\s+(?P<message>Possible NULL dereference.*)$`
is hand-compiled: every quantifier's maximal munch is the unique viable
match (path characters exclude `:`, digits exclude `:`, whitespace excludes
the severity letters), so the parse below is the regex's match. -/

theorem mem_sortKeys (s : Finset Str) (k : Str) : k ∈ sortKeys s ↔ k ∈ s := by
  rcases s with ⟨m, nd⟩
  induction m using Quotient.inductionOn with
  | h l =>
      show k ∈ List.insertionSort lexLeP l ↔ _
      rw [(List.perm_insertionSort lexLeP l).mem_iff]
      rfl

theorem sorted_sortKeys (s : Finset Str) : List.Sorted lexLeP (sortKeys s) := by
  rcases s with ⟨m, nd⟩
  induction m using Quotient.inductionOn with
  | h l => exact List.sorted_insertionSort lexLeP l

theorem stripCompileArgs_sublist : ∀ (b : Bool) (l : List Str),
    List.Sublist (stripCompileArgs b l) l := by
  intro b l
  induction l generalizing b with
  | nil => cases b <;> exact List.Sublist.refl []
  | cons a rest ih =>
      cases b with
      | true => exact (ih false).cons a
      | false =>
          unfold stripCompileArgs
          split
          · exact (ih false).cons a
          · split
            · exact (ih true).cons a
            · split
              · exact (ih false).cons a
              · exact (ih false).cons₂ a

theorem stripCompileArgs_no_strip_tokens : ∀ (b : Bool) (l : List Str),
    ∀ a ∈ stripCompileArgs b l, a ≠ "-c".data ∧ ("-o".data).isPrefixOf a = false := by
  intro b l
  induction l generalizing b with
  | nil => cases b <;> intro a ha <;> cases ha
  | cons x rest ih =>
      cases b with
      | true => exact ih false
      | false =>
          unfold stripCompileArgs
          split
          · exact ih false
          · split
            · exact ih true
            · split
              · exact ih false
              · rename_i h1 h2 h3
                intro a ha
                rcases List.mem_cons.mp ha with rfl | ha
                · exact ⟨h1, Bool.not_eq_true _ ▸ h3⟩
                · exact ih false a ha

theorem stripCompileArgs_id_of_clean : ∀ l : List Str,
    (∀ a ∈ l, a ≠ "-c".data ∧ ("-o".data).isPrefixOf a = false) →
    stripCompileArgs false l = l := by
  intro l h
  induction l with
  | nil => rfl
  | cons x rest ih =>
      have hx := h x (by simp)
      have ho : x ≠ "-o".data := by
        intro he
        rw [he] at hx
        simp [List.isPrefixOf] at hx
      unfold stripCompileArgs
      rw [if_neg hx.1, if_neg ho, if_neg (by simp [hx.2]),
        ih (fun a ha => h a (by simp [ha]))]

theorem stripCompileArgs_true_cons (a : Str) (rest : List Str) :
    stripCompileArgs true (a :: rest) = stripCompileArgs false rest := rfl

theorem stripCompileArgs_false_cons (a : Str) (rest : List Str) :
    stripCompileArgs false (a :: rest)
      = if a = "-c".data then stripCompileArgs false rest
        else if a = "-o".data then stripCompileArgs true rest
        else if ("-o".data).isPrefixOf a then stripCompileArgs false rest
        else a :: stripCompileArgs false rest := rfl

theorem stripSpecArgs_one (a : Str) :
    stripSpecArgs [a]
      = if a = "-c".data ∨ ("-o".data).isPrefixOf a then [] else [a] := rfl

theorem stripSpecArgs_two (a b : Str) (rest : List Str) :
    stripSpecArgs (a :: b :: rest)
      = if a = "-o".data then stripSpecArgs rest
        else if a = "-c".data ∨ ("-o".data).isPrefixOf a then stripSpecArgs (b :: rest)
        else a :: stripSpecArgs (b :: rest) := rfl

theorem stripCompileArgs_eq_spec (l : List Str) :
    stripCompileArgs false l = stripSpecArgs l := by
  have H : ∀ l : List Str,
      stripCompileArgs false l = stripSpecArgs l
    ∧ stripCompileArgs true l = stripSpecArgs l.tail := by
    intro l
    induction l with
    | nil => exact ⟨rfl, rfl⟩
    | cons a rest ih =>
        constructor
        · by_cases hao : a = "-o".data
          · subst hao
            cases rest with
            | nil =>
                rw [stripCompileArgs_false_cons, if_neg (by decide), if_pos rfl]
                rfl
            | cons p rest2 =>
                rw [stripCompileArgs_false_cons, if_neg (by decide), if_pos rfl,
                  ih.2]
                rfl
          · by_cases hac : a = "-c".data
            · subst hac
              rw [stripCompileArgs_false_cons, if_pos rfl, ih.1]
              cases rest with
              | nil => rfl
              | cons b r =>
                  rw [stripSpecArgs_two, if_neg (by decide),
                    if_pos (Or.inl rfl)]
            · by_cases hop : ("-o".data).isPrefixOf a = true
              · rw [stripCompileArgs_false_cons, if_neg hac, if_neg hao,
                  if_pos hop, ih.1]
                cases rest with
                | nil => rw [stripSpecArgs_one, if_pos (Or.inr hop)]; rfl
                | cons b r =>
                    rw [stripSpecArgs_two, if_neg hao, if_pos (Or.inr hop)]
              · have hcond : ¬ (a = "-c".data ∨ ("-o".data).isPrefixOf a = true) := by
                  push_neg
                  exact ⟨hac, hop⟩
                rw [stripCompileArgs_false_cons, if_neg hac, if_neg hao,
                  if_neg hop, ih.1]
                cases rest with
                | nil => rw [stripSpecArgs_one, if_neg hcond]; rfl
                | cons b r =>
                    rw [stripSpecArgs_two, if_neg hao, if_neg hcond]
        · rw [stripCompileArgs_true_cons, ih.1]
          cases rest <;> rfl
  exact (H l).1

/-- C4: the analysis invocation keeps the compiler as token zero, puts the
analysis-mode flag and the injected checker-load, checker-selection and
color-suppression flags before the surviving original arguments, strips
every `-c`, every `-o <path>` pair and every other `-o`-prefixed token
(matching the spec-level pair-stripping description), strips nothing else,
and keeps the surviving arguments in their original relative order. -/
theorem C4_invocation_transform (so compiler : Str) (rest : List Str) :
    buildFilteredArgs so (compiler :: rest)
        = compiler :: "--analyze".data :: injectedFlags so
            ++ stripCompileArgs false rest
  ∧ (buildFilteredArgs so (compiler :: rest)).head? = some compiler
  ∧ List.Sublist (stripCompileArgs false rest) rest
  ∧ (∀ a ∈ stripCompileArgs false rest,
        a ≠ "-c".data ∧ ("-o".data).isPrefixOf a = false)
  ∧ stripCompileArgs false rest = stripSpecArgs rest
  ∧ ((∀ a ∈ rest, a ≠ "-c".data ∧ ("-o".data).isPrefixOf a = false) →
        stripCompileArgs false rest = rest) :=
  ⟨rfl, rfl, stripCompileArgs_sublist false rest,
   stripCompileArgs_no_strip_tokens false rest,
   stripCompileArgs_eq_spec rest,
   stripCompileArgs_id_of_clean rest⟩

/-- Witness for `C4_invocation_transform` on a concrete kernel-style
command line. -/
theorem C4_invocation_transform_witness :
    buildFilteredArgs ("/tmp/npd.so".data)
        ("gcc".data :: ["-c".data, "-O2".data, "-o".data, "x.o".data, "x.c".data])
      = "gcc".data :: "--analyze".data :: injectedFlags ("/tmp/npd.so".data)
          ++ stripCompileArgs false
              ["-c".data, "-O2".data, "-o".data, "x.o".data, "x.c".data]
  ∧ stripCompileArgs false ["-O2".data, "x.c".data] = ["-O2".data, "x.c".data] := by
  refine ⟨(C4_invocation_transform ("/tmp/npd.so".data) ("gcc".data)
    ["-c".data, "-O2".data, "-o".data, "x.o".data, "x.c".data]).1, ?_⟩
  exact (C4_invocation_transform ("/tmp/npd.so".data) ("gcc".data)
    ["-O2".data, "x.c".data]).2.2.2.2.2 (by decide)

/-- C2: for every pair of analysis summaries, the comparator computes
fixed = baseline minus latest, persistent = the intersection, and
regressions = latest minus baseline, each as a lexicographically sorted
list; in particular baseline {A,B,C} vs latest {B,C,D} reports fixed={A},
persistent={B,C}, regressions={D}. -/
theorem C2_comparator_set_correctness (baseline latest : Finset Str) :
    (∀ k, k ∈ (compare_summaries baseline latest).1 ↔ k ∈ baseline ∧ k ∉ latest)
  ∧ (∀ k, k ∈ (compare_summaries baseline latest).2.1 ↔ k ∈ baseline ∧ k ∈ latest)
  ∧ (∀ k, k ∈ (compare_summaries baseline latest).2.2 ↔ k ∈ latest ∧ k ∉ baseline)
  ∧ List.Sorted lexLeP (compare_summaries baseline latest).1
  ∧ List.Sorted lexLeP (compare_summaries baseline latest).2.1
  ∧ List.Sorted lexLeP (compare_summaries baseline latest).2.2
  ∧ compare_summaries {"A".data, "B".data, "C".data} {"B".data, "C".data, "D".data}
      = (["A".data], ["B".data, "C".data], ["D".data]) := by
  refine ⟨?_, ?_, ?_, ?_, ?_, ?_, ?_⟩
  · intro k
    simp [compare_summaries, mem_sortKeys, Finset.mem_sdiff]
  · intro k
    simp [compare_summaries, mem_sortKeys, Finset.mem_inter]
  · intro k
    simp [compare_summaries, mem_sortKeys, Finset.mem_sdiff]
  · exact sorted_sortKeys _
  · exact sorted_sortKeys _
  · exact sorted_sortKeys _
  · decide

/-- C7: the Checker Builder attempts a compile if and only if the source
exists and (force is set, or the artifact is missing, or the artifact is
older than the source); it reuses the artifact exactly otherwise; and a
missing source yields the missing-input failure with no compile attempted. -/
theorem C7_build_checker_staleness (fs : CheckerFs) (force : Bool) :
    ((build_checker fs force).2 = true ↔
        fs.sourceExists = true ∧
          (force = true ∨ fs.libExists = false ∨ fs.libMtime < fs.sourceMtime))
  ∧ (build_checker fs force = (.ok .reused, false) ↔
        fs.sourceExists = true ∧
          ¬ (force = true ∨ fs.libExists = false ∨ fs.libMtime < fs.sourceMtime))
  ∧ (build_checker fs force = (.error .missingInput, false) ↔
        fs.sourceExists = false) := by
  obtain ⟨se, le, sm, lm, co⟩ := fs
  cases se <;> cases le <;> cases force <;> cases co <;>
    by_cases hm : lm < sm <;>
      simp [build_checker, hm]

/-- C9: a structured command failure at top level prints the captured
stdout then stderr (when present and non-empty) then an error line, and
exits with the failing command's exit code, mapped to 1 when that code is
falsy; any other unhandled failure prints an error line and exits 1. -/
theorem C9_exit_behavior (rc : Int) (out err : Option Str) (msg emsg : Str)
    (hrc : rc ≠ 0) :
    (mainExit (.cmdError rc out err msg)).1 = rc
  ∧ (mainExit (.cmdError 0 out err msg)).1 = 1
  ∧ (mainExit (.cmdError rc out err msg)).2 =
      (match out with | some s => if s.isEmpty then [] else [s] | none => [])
        ++ (match err with | some s => if s.isEmpty then [] else [s] | none => [])
        ++ ["\nerror: ".data ++ msg ++ "\n".data]
  ∧ mainExit (.otherError emsg) =
      (1, ["\nUnhandled error: ".data ++ emsg ++ "\n".data])
  ∧ (mainExit .ok).1 = 0 := by
  refine ⟨?_, ?_, ?_, ?_, ?_⟩ <;> simp [mainExit, hrc]

/-- Witness for `C9_exit_behavior` at a concrete failure. -/
theorem C9_exit_behavior_witness :
    (mainExit (.cmdError 2 (some ("out".data)) none ("boom".data))).1 = 2
  ∧ (mainExit (.cmdError 0 (some ("out".data)) none ("boom".data))).1 = 1 :=
  ⟨(C9_exit_behavior 2 (some ("out".data)) none ("boom".data) [] (by decide)).1,
   (C9_exit_behavior 2 (some ("out".data)) none ("boom".data) [] (by decide)).2.1⟩

theorem presolve_absolute (cwd p : PathM) : (presolve cwd p).absolute = true := by
  unfold presolve
  split <;> rfl

theorem presolve_presolve (cwd p : PathM) :
    presolve cwd (presolve cwd p) = presolve cwd p := by
  by_cases hp : p.absolute <;> simp [presolve, hp, normSegs_idem]

/-- C6: an extracted relative path is resolved against the invocation's
resolved working directory and then expressed relative to the resolved
repository root when possible; consequently the same diagnostic reported
with the equivalent absolute path yields the same repository-relative path
and hence the same composite key. -/
theorem C6_path_normalization (cwd root d : PathM) (ps : List Str) (n : Nat)
    (msg : Str) :
    (presolve cwd (pjoin (presolve cwd d) { absolute := false, segs := ps })).absolute
        = true
  ∧ relPathOf cwd (presolve cwd d) (presolve cwd root)
        { absolute := false, segs := ps }
      = relPathOf cwd (presolve cwd d) (presolve cwd root)
          (presolve cwd (pjoin (presolve cwd d) { absolute := false, segs := ps }))
  ∧ diagKey (relPathOf cwd (presolve cwd d) (presolve cwd root)
        { absolute := false, segs := ps }) n msg
      = diagKey (relPathOf cwd (presolve cwd d) (presolve cwd root)
          (presolve cwd (pjoin (presolve cwd d) { absolute := false, segs := ps })))
        n msg := by
  have habs := presolve_absolute cwd
    (pjoin (presolve cwd d) { absolute := false, segs := ps })
  have key : relPathOf cwd (presolve cwd d) (presolve cwd root)
        { absolute := false, segs := ps }
      = relPathOf cwd (presolve cwd d) (presolve cwd root)
          (presolve cwd (pjoin (presolve cwd d) { absolute := false, segs := ps })) := by
    simp only [relPathOf]
    rw [if_pos (by simp), if_neg (by simp [habs]), presolve_presolve]
  exact ⟨habs, key, by rw [key]⟩

theorem stInv_recordParsed {st : AnState} (parsed : List Diag) (h : stInv st) :
    stInv (recordParsed st parsed) := by
  induction parsed generalizing st with
  | nil => exact h
  | cons d rest ih =>
      have hstep : stInv (if d.key ∈ st.keys then st
          else { st with keys := d.key :: st.keys, diags := st.diags ++ [d] }) := by
        split
        · exact h
        · rename_i hnot
          constructor
          · intro x hx
            rcases List.mem_append.mp hx with hx | hx
            · exact List.mem_cons_of_mem _ (h.1 x hx)
            · rw [List.mem_singleton.mp hx]
              exact List.mem_cons_self _ _
          · simp only [List.map_append, List.map_cons, List.map_nil]
            rw [List.nodup_append]
            refine ⟨h.2, List.nodup_singleton _, ?_⟩
            intro x hx hxd
            rw [List.mem_singleton.mp hxd] at hx
            rcases List.mem_map.mp hx with ⟨y, hy, hyk⟩
            exact hnot (hyk ▸ h.1 y hy)
      exact ih hstep

theorem analyzeEntries_inv (shx : Str → List Str) (cwd repo : PathM) (so : Str)
    (lim : Option Nat) :
    ∀ (entries : List CdbEntry) (st st' : AnState), stInv st →
      analyzeEntries shx cwd repo so lim entries st = .ok st' → stInv st' := by
  intro entries
  induction entries with
  | nil =>
      intro st st' h he
      cases he
      exact h
  | cons e rest ih =>
      intro st st' h he
      unfold analyzeEntries at he
      split at he
      · cases he
        exact h
      · split at he
        · exact ih _ _ h he
        · split at he
          · exact ih _ _ h he
          · split at he
            · exact ih _ _ h he
            · split at he
              · cases he
              · split at he
                · exact ih _ _ h he
                · apply ih _ _ _ he
                  exact stInv_recordParsed _ h

theorem run_static_analyzer_nodup (shx : Str → List Str) (cwd repo : PathM)
    (so : Str) (lim : Option Nat) (entries : List CdbEntry)
    (keys : List Str) (diags : List Diag)
    (hrun : run_static_analyzer shx cwd repo so lim entries = .ok (keys, diags)) :
    (diags.map (fun d => d.key)).Nodup := by
  unfold run_static_analyzer at hrun
  split at hrun
  · cases hrun
  · rename_i st hst
    cases hrun
    have hinv : stInv st :=
      analyzeEntries_inv shx cwd repo so lim entries ⟨0, [], []⟩ st
        ⟨fun d hd => absurd hd (List.not_mem_nil d), List.nodup_nil⟩ hst
    have hperm : List.Perm
        ((List.insertionSort (fun a b => lexLe a.key b.key = true) st.diags).map
          (fun d => d.key))
        (st.diags.map (fun d => d.key)) :=
      (List.perm_insertionSort _ st.diags).map _
    exact hperm.nodup_iff.mpr hinv.2

/-- C5: raw text holding two candidate lines with identical file, line and
message but different columns yields two parsed diagnostics with one shared
key, of which the recording loop keeps exactly one; and in any completed
run at most one diagnostic per key is recorded. -/
theorem C5_deduplication (shx : Str → List Str) (cwd repo : PathM) (so : Str)
    (lim : Option Nat) (entries : List CdbEntry) (keys : List Str)
    (diags : List Diag)
    (hrun : run_static_analyzer shx cwd repo so lim entries = .ok (keys, diags)) :
    (extract_warnings demoCwd dedupDemoText demoRoot demoRoot).length = 2
  ∧ ((extract_warnings demoCwd dedupDemoText demoRoot demoRoot).map
        (fun d => d.key)) = [dedupDemoKey, dedupDemoKey]
  ∧ ((recordParsed ⟨0, [], []⟩
        (extract_warnings demoCwd dedupDemoText demoRoot demoRoot)).diags.map
          (fun d => d.key)) = [dedupDemoKey]
  ∧ (diags.map (fun d => d.key)).Nodup :=
  ⟨by decide, by decide, by decide,
   run_static_analyzer_nodup shx cwd repo so lim entries keys diags hrun⟩

/-- Witness for `C5_deduplication` at a concrete completed run. -/
theorem C5_deduplication_witness :
    ((extract_warnings demoCwd dedupDemoText demoRoot demoRoot).map
        (fun d => d.key)) = [dedupDemoKey, dedupDemoKey]
  ∧ ((recordParsed ⟨0, [], []⟩
        (extract_warnings demoCwd dedupDemoText demoRoot demoRoot)).diags.map
          (fun d => d.key)) = [dedupDemoKey] :=
  ⟨(C5_deduplication wsSplit demoCwd demoRoot [] none [] [] [] rfl).2.1,
   (C5_deduplication wsSplit demoCwd demoRoot [] none [] [] [] rfl).2.2.1⟩

theorem analyzeEntries_exit_independent (shx : Str → List Str) (cwd repo : PathM)
    (so : Str) (lim : Option Nat) (g : CdbEntry → Int) :
    ∀ (entries : List CdbEntry) (st : AnState),
      analyzeEntries shx cwd repo so lim (entries.map (withExit g)) st
        = analyzeEntries shx cwd repo so lim entries st := by
  intro entries
  induction entries with
  | nil => intro st; rfl
  | cons e rest ih =>
      intro st
      rcases e with ⟨f, dir, args, cmd, x, out⟩
      simp only [List.map_cons]
      unfold analyzeEntries
      by_cases hl : limitReached lim st.processed
      · rw [if_pos hl, if_pos hl]
      · rw [if_neg hl, if_neg hl]
        have hW : withExit g ⟨f, dir, args, cmd, x, out⟩
            = ⟨f, dir, args, cmd, g ⟨f, dir, args, cmd, x, out⟩, out⟩ := rfl
        rw [hW]
        cases f with
        | none => exact ih st
        | some fv =>
            dsimp only
            by_cases hfe : fv.isEmpty
            · rw [if_pos hfe, if_pos hfe]
              exact ih st
            · rw [if_neg hfe, if_neg hfe]
              by_cases hue : usableCExt fv
              · rw [if_neg (by simp [hue]), if_neg (by simp [hue])]
                have hga : getArguments shx
                      ⟨some fv, dir, args, cmd,
                        g ⟨some fv, dir, args, cmd, x, out⟩, out⟩
                    = getArguments shx ⟨some fv, dir, args, cmd, x, out⟩ := rfl
                rw [hga]
                cases hres : getArguments shx ⟨some fv, dir, args, cmd, x, out⟩ with
                | error u => rfl
                | ok argl =>
                    dsimp only
                    by_cases hae : argl.isEmpty
                    · rw [if_pos hae, if_pos hae]
                      exact ih st
                    · rw [if_neg hae, if_neg hae]
                      exact ih _
              · rw [if_pos (by simp [hue]), if_pos (by simp [hue])]
                exact ih st

theorem analyzeEntries_completes (shx : Str → List Str) (cwd repo : PathM)
    (so : Str) (lim : Option Nat) :
    ∀ (entries : List CdbEntry) (st : AnState),
      (∀ e ∈ entries, entryAborts shx e = false) →
      ∃ st', analyzeEntries shx cwd repo so lim entries st = .ok st' := by
  intro entries
  induction entries with
  | nil =>
      intro st _
      exact ⟨st, rfl⟩
  | cons e rest ih =>
      intro st h
      have hrest : ∀ e2 ∈ rest, entryAborts shx e2 = false :=
        fun e2 he2 => h e2 (List.mem_cons_of_mem _ he2)
      have he := h e (List.mem_cons_self _ _)
      unfold analyzeEntries
      by_cases hl : limitReached lim st.processed
      · rw [if_pos hl]
        exact ⟨st, rfl⟩
      · rw [if_neg hl]
        rcases e with ⟨f, dir, args, cmd, x, out⟩
        cases f with
        | none => exact ih st hrest
        | some fv =>
            dsimp only
            by_cases hfe : fv.isEmpty
            · rw [if_pos hfe]
              exact ih st hrest
            · rw [if_neg hfe]
              by_cases hue : usableCExt fv
              · rw [if_neg (by simp [hue])]
                unfold entryAborts at he
                dsimp only at he
                rw [if_neg hfe, if_neg (by simp [hue])] at he
                cases hres : getArguments shx ⟨some fv, dir, args, cmd, x, out⟩ with
                | error u =>
                    rw [hres] at he
                    simp at he
                | ok argl =>
                    dsimp only
                    by_cases hae : argl.isEmpty
                    · rw [if_pos hae]
                      exact ih st hrest
                    · rw [if_neg hae]
                      exact ih _ hrest
              · rw [if_pos (by simp [hue])]
                exact ih st hrest

/-- C3: the analysis invocation of every unit is executed with output
captured and failure-on-error disabled, so the run's result is entirely
independent of the units' exit codes (a non-zero exit never raises), and a
batch whose entries all carry reconstructible argument lists runs to
completion, reporting the diagnostics collected from all units. -/
theorem C3_unit_failure_isolation (shx : Str → List Str) (cwd repo : PathM)
    (so : Str) (lim : Option Nat) (g : CdbEntry → Int) (entries : List CdbEntry)
    (h : ∀ e ∈ entries, entryAborts shx e = false) :
    run_static_analyzer shx cwd repo so lim (entries.map (withExit g))
        = run_static_analyzer shx cwd repo so lim entries
  ∧ ∃ st', analyzeEntries shx cwd repo so lim entries ⟨0, [], []⟩ = .ok st' := by
  constructor
  · unfold run_static_analyzer
    rw [analyzeEntries_exit_independent shx cwd repo so lim g entries ⟨0, [], []⟩]
  · exact analyzeEntries_completes shx cwd repo so lim entries ⟨0, [], []⟩ h

/-- Witness for `C3_unit_failure_isolation`: a unit failing with exit code 1
next to a succeeding unit. -/
theorem C3_unit_failure_isolation_witness :
    run_static_analyzer wsSplit demoCwd demoRoot ("npd.so".data) none
        ([failingUnitEntry, okUnitEntry].map (withExit (fun _ => 0)))
      = run_static_analyzer wsSplit demoCwd demoRoot ("npd.so".data) none
          [failingUnitEntry, okUnitEntry]
  ∧ ∃ st', analyzeEntries wsSplit demoCwd demoRoot ("npd.so".data) none
        [failingUnitEntry, okUnitEntry] ⟨0, [], []⟩ = .ok st' :=
  C3_unit_failure_isolation wsSplit demoCwd demoRoot ("npd.so".data) none
    (fun _ => 0) [failingUnitEntry, okUnitEntry] (by decide)

/-- C10: a compile-database entry carrying a usable C source file but
neither a non-empty `arguments` array nor a `command` string raises the
missing-key lookup, aborting the whole tag's analysis run — unlike a
per-unit analyzer failure (non-zero exit), which is skipped and leaves the
batch running. -/
theorem C10_missing_command_aborts :
    analyzeEntries wsSplit demoCwd demoRoot ("npd.so".data) none
        [missingCmdEntry, okUnitEntry] ⟨0, [], []⟩ = .error ()
  ∧ run_static_analyzer wsSplit demoCwd demoRoot ("npd.so".data) none
        [missingCmdEntry, okUnitEntry] = .error ()
  ∧ (∃ st', analyzeEntries wsSplit demoCwd demoRoot ("npd.so".data) none
        [failingUnitEntry, okUnitEntry] ⟨0, [], []⟩ = .ok st') :=
  ⟨by decide, by decide,
   analyzeEntries_completes wsSplit demoCwd demoRoot ("npd.so".data) none
     [failingUnitEntry, okUnitEntry] ⟨0, [], []⟩ (by decide)⟩

theorem gitStep_clean (r : GitRepo) : gitStep r .clean = r := rfl

theorem gitStep_checkout (r : GitRepo) (ref : Str) :
    gitStep r (.checkout ref)
      = if r.isBranch ref then { r with head := .attached ref }
        else { r with head := .detached (resolveGit r ref) } := rfl

theorem gitStep_resetHard_attached (r : GitRepo) (ref b : Str)
    (h : r.head = .attached b) :
    gitStep r (.resetHard ref)
      = { r with tip := fun x => if x = b then resolveGit r ref else r.tip x } := by
  unfold gitStep
  rw [h]

theorem gitStep_resetHard_detached (r : GitRepo) (ref cm : Str)
    (h : r.head = .detached cm) :
    gitStep r (.resetHard ref)
      = { r with head := .detached (resolveGit r ref) } := by
  unfold gitStep
  rw [h]

theorem gitStep_isBranch (r : GitRepo) (c : GitCmd) :
    (gitStep r c).isBranch = r.isBranch := by
  cases c with
  | clean => rfl
  | checkout ref =>
      rw [gitStep_checkout]
      split <;> rfl
  | resetHard ref =>
      cases hr : r.head with
      | attached b => rw [gitStep_resetHard_attached r ref b hr]
      | detached cm => rw [gitStep_resetHard_detached r ref cm hr]

theorem gitStep_resolveRef (r : GitRepo) (c : GitCmd) :
    (gitStep r c).resolveRef = r.resolveRef := by
  cases c with
  | clean => rfl
  | checkout ref =>
      rw [gitStep_checkout]
      split <;> rfl
  | resetHard ref =>
      cases hr : r.head with
      | attached b => rw [gitStep_resetHard_attached r ref b hr]
      | detached cm => rw [gitStep_resetHard_detached r ref cm hr]

theorem gitExec_isBranch (r : GitRepo) (cmds : List GitCmd) :
    (gitExec r cmds).isBranch = r.isBranch := by
  induction cmds generalizing r with
  | nil => rfl
  | cons c rest ih =>
      show (gitExec (gitStep r c) rest).isBranch = r.isBranch
      rw [ih (gitStep r c), gitStep_isBranch]

theorem gitExec_resolveRef (r : GitRepo) (cmds : List GitCmd) :
    (gitExec r cmds).resolveRef = r.resolveRef := by
  induction cmds generalizing r with
  | nil => rfl
  | cons c rest ih =>
      show (gitExec (gitStep r c) rest).resolveRef = r.resolveRef
      rw [ih (gitStep r c), gitStep_resolveRef]

theorem restore_headCommit (r0 r : GitRepo)
    (hib : r.isBranch = r0.isBranch) (hrr : r.resolveRef = r0.resolveRef)
    (hc1 : r0.isBranch (headCommit r0) = false)
    (hc2 : r0.resolveRef (headCommit r0) = headCommit r0)
    (hc3 : headCommit r0 ≠ "HEAD".data)
    (hb : ∀ b, r0.head = .attached b →
        r0.isBranch b = true ∧ b ≠ "HEAD".data ∧ b ≠ []) :
    headCommit (gitExec r (restoreOps (recordedBranch r0) (headCommit r0)))
      = headCommit r0 := by
  have hres : ∀ r2 : GitRepo, r2.isBranch = r0.isBranch →
      r2.resolveRef = r0.resolveRef →
      resolveGit r2 (headCommit r0) = headCommit r0 := by
    intro r2 h2b h2r
    unfold resolveGit
    rw [if_neg hc3, h2b, hc1]
    simp [h2r, hc2]
  have hco : gitStep r (.checkout (headCommit r0))
      = { r with head := .detached (headCommit r0) } := by
    rw [gitStep_checkout, hib, hc1]
    simp only [Bool.false_eq_true, if_false]
    rw [hres r hib hrr]
  cases hh : r0.head with
  | detached c =>
      have hrb : recordedBranch r0 = "HEAD".data := by
        unfold recordedBranch
        rw [hh]
      rw [hrb]
      unfold restoreOps
      rw [if_neg (by simp)]
      show headCommit (gitExec r
        [.clean, .checkout (headCommit r0), .clean]) = headCommit r0
      unfold gitExec
      simp only [List.foldl_cons, List.foldl_nil, gitStep_clean]
      rw [hco]
      rfl
  | attached b =>
      obtain ⟨hbB, hbH, hbE⟩ := hb b hh
      have hrb : recordedBranch r0 = b := by
        unfold recordedBranch
        rw [hh]
      rw [hrb]
      unfold restoreOps
      rw [if_pos ⟨hbE, hbH⟩]
      show headCommit (gitExec r
        [.clean, .checkout (headCommit r0), .checkout b,
          .resetHard (headCommit r0), .clean]) = headCommit r0
      unfold gitExec
      simp only [List.foldl_cons, List.foldl_nil, gitStep_clean]
      rw [hco]
      have h3 : gitStep { r with head := GitHead.detached (headCommit r0) }
          (.checkout b) = { r with head := GitHead.attached b } := by
        rw [gitStep_checkout]
        show (if r.isBranch b = true then _ else _) = _
        rw [hib, hbB]
        simp
      rw [h3]
      have h4 : gitStep { r with head := GitHead.attached b }
            (.resetHard (headCommit r0))
          = { r with
                head := GitHead.attached b
                tip := fun x => if x = b then headCommit r0 else r.tip x } := by
        rw [gitStep_resetHard_attached { r with head := GitHead.attached b }
          (headCommit r0) b rfl]
        rw [hres { r with head := GitHead.attached b } hib hrr]
      rw [h4]
      show (if b = b then headCommit r0 else r.tip b) = headCommit r0
      simp

/-- C1: over any plan of tags, whether every tag's processing succeeds or
any step raises, the `finally` region appends the restoration sequence —
hard-clean, checkout of the recorded original commit, and, for a named
original branch, checkout of that branch plus hard reset to the original
commit, then one final hard-clean — as a suffix of the emitted commands,
and replaying the whole run leaves `HEAD` at its original commit. -/
theorem C1_restoration_invariant (r : GitRepo) (plan : List (Str × TagOutcome))
    (hc1 : r.isBranch (headCommit r) = false)
    (hc2 : r.resolveRef (headCommit r) = headCommit r)
    (hc3 : headCommit r ≠ "HEAD".data)
    (hb : ∀ b, r.head = .attached b →
        r.isBranch b = true ∧ b ≠ "HEAD".data ∧ b ≠ []) :
    workflowOps r plan
        = (processTagsOps plan).1 ++ restoreOps (recordedBranch r) (headCommit r)
  ∧ List.IsSuffix (restoreOps (recordedBranch r) (headCommit r))
      (workflowOps r plan)
  ∧ headCommit (gitExec r (workflowOps r plan)) = headCommit r := by
  refine ⟨rfl, List.suffix_append _ _, ?_⟩
  show headCommit (gitExec r ((processTagsOps plan).1
    ++ restoreOps (recordedBranch r) (headCommit r))) = headCommit r
  unfold gitExec
  rw [List.foldl_append]
  exact restore_headCommit r (gitExec r (processTagsOps plan).1)
    (gitExec_isBranch r _) (gitExec_resolveRef r _) hc1 hc2 hc3 hb

/-- Witness for `C1_restoration_invariant`: a one-branch repository run over
a plan in which the first tag succeeds and the second raises after its
checkout. -/
theorem C1_restoration_invariant_witness :
    List.IsSuffix (restoreOps (recordedBranch demoRepo) (headCommit demoRepo))
      (workflowOps demoRepo demoPlan)
  ∧ headCommit (gitExec demoRepo (workflowOps demoRepo demoPlan))
      = headCommit demoRepo := by
  have h := C1_restoration_invariant demoRepo demoPlan (by decide) rfl (by decide)
    (by
      intro b hb
      cases hb
      exact ⟨by decide, by decide, by decide⟩)
  exact ⟨h.2.1, h.2.2⟩

/-- C8 counterexample: the per-tag command sequence the code issues is not
the claimed hard-clean → checkout → hard-reset-to-the-tag sequence. -/
theorem C8_sequence_counterexample :
    tagOps ("v5.9".data)
      ≠ [GitCmd.clean, GitCmd.checkout ("v5.9".data),
         GitCmd.resetHard ("v5.9".data)] := by
  decide

/-- C8 (amended): for each requested tag, in order, the Repository State
Manager performs exactly checkout of the tag, then hard-reset to `HEAD`,
then hard-clean of untracked files; a fully successful workflow emits these
triples in tag order followed by the restoration sequence. -/
theorem C8_tag_sequence (tags : List Str) (r : GitRepo) :
    (processTagsOps (tags.map (fun t => (t, TagOutcome.ok)))).1
        = (tags.map (fun t =>
            [GitCmd.checkout t, GitCmd.resetHard ("HEAD".data),
             GitCmd.clean])).flatten
  ∧ workflowOps r (tags.map (fun t => (t, TagOutcome.ok)))
      = (tags.map (fun t =>
          [GitCmd.checkout t, GitCmd.resetHard ("HEAD".data),
           GitCmd.clean])).flatten
        ++ restoreOps (recordedBranch r) (headCommit r) := by
  have h1 : (processTagsOps (tags.map (fun t => (t, TagOutcome.ok)))).1
      = (tags.map (fun t =>
          [GitCmd.checkout t, GitCmd.resetHard ("HEAD".data),
           GitCmd.clean])).flatten := by
    induction tags with
    | nil => rfl
    | cons t rest ih =>
        simp only [List.map_cons, List.flatten_cons, processTagsOps]
        rw [← ih]
        rfl
  refine ⟨h1, ?_⟩
  unfold workflowOps
  rw [h1]
